import Mathlib

/-!
Verification development for the uplift-tree trainer in `src/main.rs`.

The embedding follows the Rust source closely:
* `f64` values are modelled as rationals (`ℚ`), `i32` values as `Int`,
  `usize` indices as `Nat`;
* a `DataFrame` is a `List Row`, where a row carries its feature columns as an
  association list plus the already-cast treatment and outcome columns;
* fallible code (Rust panics: the `assert!` in `calc_score`, division or
  remainder by zero, out-of-bounds indexing, and the `RefCell` nested
  mutable-borrow failure in `build`) is modelled with `Except String`;
* the ambient `rand::thread_rng()` is replaced by an injectable deterministic
  source (`Rng`), following the spec boundary (spec section 1 and section 9:
  random-number generation is assumed to be an injectable uniform source).
-/

namespace UpliftTree

/-- `SplitValue` from main.rs: numeric threshold or categorical value.
Floats are modelled as rationals. -/
inductive SplitValue where
  | Numeric (v : ℚ)
  | Str (s : String)
  deriving DecidableEq, Repr

/-- Whether a value is the numeric variant (models the polars dtype check
`is_numeric`, which on a homogeneous cast column agrees with the per-value
variant). -/
def SplitValue.isNumeric : SplitValue → Bool
  | .Numeric _ => true
  | .Str _ => false

/-- Numeric payload (models `try_extract::<f64>()`; only applied on numeric
columns, where it never panics). -/
def SplitValue.numVal : SplitValue → ℚ
  | .Numeric v => v
  | .Str _ => 0

/-- String payload (models the cast to `Utf8`; only applied on categorical
columns). -/
def SplitValue.strVal : SplitValue → String
  | .Numeric v => toString v
  | .Str s => s

/-- `TreeNode` from main.rs. -/
structure TreeNode where
  col_name : String
  split_value : SplitValue
  true_branch : Int
  false_branch : Int
  deriving DecidableEq, Repr

/-- `TreeNode::new()`: the default (unused leaf) slot. -/
def TreeNode.new : TreeNode :=
  { col_name := "", split_value := .Numeric 0, true_branch := -1, false_branch := -1 }

/-- One row of the preprocessed dataset: the feature columns (name, value)
plus the treatment and outcome columns already cast to `Int32`. -/
structure Row where
  features : List (String × SplitValue)
  treatment : Int
  outcome : Int
  deriving DecidableEq, Repr

/-- Column access for one row (models `data.column(f)` restricted to a row). -/
def Row.feat (r : Row) (f : String) : SplitValue :=
  (r.features.lookup f).getD (.Numeric 0)

/-- The hyperparameters of `UpliftTreeModel` together with the feature column
names populated by `fit` (the treatment and outcome columns live inside `Row`). -/
structure Model where
  max_depth : Int
  min_sample_leaf : Int
  feature_sample_size : Int
  max_splits : Int
  feature_cols : List String

/-- Modelled from the spec: the injectable deterministic random source standing
for `rand::thread_rng()` (spec sections 1 and 9: feature subsampling and
categorical-candidate subsampling take an injectable source, not ambient global
state). `chooseFeatures` models `SliceRandom::choose_multiple` on the feature
names, `chooseStrs` models `choose_multiple` on the stringified distinct
values. -/
structure Rng where
  chooseFeatures : List String → Nat → List String
  chooseStrs : List String → Nat → List String

/-- Row count of one treatment group (the `count().alias("n")` aggregate of
`UpliftTreeModel::summary`). -/
def countT (data : List Row) (t : Int) : Int :=
  ((data.filter (fun r => r.treatment == t)).length : Int)

/-- Outcome sum of one treatment group (the `col(outcome).sum().alias("n_p")`
aggregate of `UpliftTreeModel::summary`). -/
def sumOutcome (data : List Row) (t : Int) : Int :=
  ((data.filter (fun r => r.treatment == t)).map Row.outcome).sum

/-- `UpliftTreeModel::summary`: group by the treatment column, aggregate row
count and outcome sum, sort ascending by treatment value; if the resulting
frame is not of shape (2, 3) — i.e. there are not exactly two groups — return
the empty vector, else `[n_c, n_pc, n_t, n_pt]`. The distinct treatment values
are `(data.map Row.treatment).dedup`; when there are exactly two, the sorted
order lists `min` before `max`. -/
def summary (data : List Row) : List Int :=
  match (data.map Row.treatment).dedup with
  | [a, b] =>
    [countT data (min a b), sumOutcome data (min a b),
     countT data (max a b), sumOutcome data (max a b)]
  | _ => []

/-- `UpliftTreeModel::calc_score` (Euclidean variant): asserts the summary has
length 4 (the Rust `assert!(v.len() == 4)` panic is the `.error` case), then
returns `(n_pc/n_c - n_pt/n_t)^2`. -/
def calc_score (v : List Int) : Except String ℚ :=
  if v.length = 4 then
    .ok (((v.getD 1 0 : ℚ) / (v.getD 0 0 : ℚ) - (v.getD 3 0 : ℚ) / (v.getD 2 0 : ℚ)) ^ 2)
  else
    .error "assertion failed: v.len() == 4"

/-- `UpliftTreeModel::calc_norm`, verbatim over ℚ. -/
def calc_norm (n_c n_t n_c_left n_t_left : Int) : ℚ :=
  let p_t : ℚ := (n_t : ℚ) / ((n_t : ℚ) + (n_c : ℚ))
  let p_c : ℚ := 1 - p_t
  let p_c_left : ℚ := (n_c_left : ℚ) / ((n_t_left : ℚ) + (n_c_left : ℚ))
  let p_t_left : ℚ := 1 - p_c_left
  (1 - p_t ^ 2 - p_c ^ 2) * (p_c_left - p_t_left) ^ 2
    + p_t * (1 - p_t_left ^ 2)
    + p_c * (1 - p_c_left ^ 2)
    + 1 / 2

/-- Numeric filter `col(f).lt_eq(v)`: true only on numeric cells with
payload ≤ v. -/
def numLe (x : SplitValue) (v : ℚ) : Bool :=
  match x with
  | .Numeric q => decide (q ≤ v)
  | .Str _ => false

/-- Numeric filter `col(f).gt(v)`. -/
def numGt (x : SplitValue) (v : ℚ) : Bool :=
  match x with
  | .Numeric q => decide (v < q)
  | .Str _ => false

/-- Categorical filter `col(f).eq(s)`. -/
def strEq (x : SplitValue) (s : String) : Bool :=
  match x with
  | .Str t => t == s
  | .Numeric _ => false

/-- Categorical filter `col(f).neq(s)`. -/
def strNe (x : SplitValue) (s : String) : Bool :=
  match x with
  | .Str t => t != s
  | .Numeric _ => false

/-- `UpliftTreeModel::split_set`: partition the dataset on feature `f` at the
split value `v`. -/
def split_set (v : SplitValue) (f : String) (data : List Row) : List Row × List Row :=
  match v with
  | .Numeric q =>
    (data.filter (fun r => numLe (r.feat f) q), data.filter (fun r => numGt (r.feat f) q))
  | .Str s =>
    (data.filter (fun r => strEq (r.feat f) s), data.filter (fun r => strNe (r.feat f) s))

/-- Rust's `dedup_by` on the selected numeric split values: remove each element
equal (as numerics) to the last kept element. The head of the list is the last
kept element while the run continues. -/
def sameNumeric : SplitValue → SplitValue → Bool
  | .Numeric a, .Numeric b => a == b
  | _, _ => false

/-- Adjacent-only deduplication, keeping the first element of every run of
numerically-equal values (semantics of `Vec::dedup_by` with the closure at
main.rs lines 156-163). -/
def dedupAdjacent : List SplitValue → List SplitValue
  | [] => []
  | [a] => [a]
  | a :: b :: rest =>
    if sameNumeric b a then dedupAdjacent (a :: rest)
    else a :: dedupAdjacent (b :: rest)

/-- Ascending insertion by numeric payload (models `Series::sort(false)` on a
numeric column). -/
def insertNum (x : SplitValue) : List SplitValue → List SplitValue
  | [] => [x]
  | y :: ys => if x.numVal ≤ y.numVal then x :: y :: ys else y :: insertNum x ys

/-- Ascending sort by numeric payload. -/
def sortNum : List SplitValue → List SplitValue
  | [] => []
  | x :: xs => insertNum x (sortNum xs)

/-- The stride of the oversampled numeric branch of `calc_split_values`:
`col_values.len() as i32 / self.max_splits` (integer division; all division
conventions agree here because the length is nonnegative and every claim
assumes `max_splits ≥ 1`). -/
def strideOf (m : Model) (colValues : List SplitValue) : Int :=
  (colValues.length : Int) / m.max_splits

/-- `UpliftTreeModel::calc_split_values`. The two Rust division/remainder
panics (`len / max_splits` with `max_splits = 0`, and `i % split_range` with
`split_range = 0`) are the `.error` cases. -/
def calc_split_values (m : Model) (rng : Rng) (colValues : List SplitValue) :
    Except String (List SplitValue) :=
  let uniqueValues := colValues.dedup
  if (uniqueValues.length : Int) ≤ m.max_splits then
    if uniqueValues.all SplitValue.isNumeric then
      .ok (uniqueValues.map (fun v => SplitValue.Numeric v.numVal))
    else
      .ok (uniqueValues.map (fun v => SplitValue.Str v.strVal))
  else
    if colValues.all SplitValue.isNumeric then
      if m.max_splits = 0 then
        .error "attempt to divide by zero"
      else
        let split_range := strideOf m colValues
        if split_range = 0 then
          .error "attempt to calculate the remainder with a divisor of zero"
        else
          .ok (dedupAdjacent
            (((sortNum colValues).enum.filter
                (fun p => (p.1 : Int) % split_range == split_range - 1)).map
              (fun p => SplitValue.Numeric p.2.numVal)))
    else
      .ok ((rng.chooseStrs (uniqueValues.map SplitValue.strVal) m.max_splits.toNat).map
        SplitValue.Str)

/-- The best candidate tracked by the loop of `build` (the mutable locals
`max_gain`, `best_data_left`, `best_data_right`, `split_col`, `split_value`).
`Option Best` models the `f64::MIN` sentinel: `none` stands for "no candidate
evaluated yet", and the first evaluated gain always beats `f64::MIN`. -/
structure Best where
  gain : ℚ
  left : List Row
  right : List Row
  col : String
  value : SplitValue
  deriving DecidableEq, Repr

/-- `gain > max_gain` of main.rs line 278, with `none` as the `f64::MIN`
sentinel. -/
def gainBeatsMax (g : ℚ) : Option Best → Bool
  | none => true
  | some b => decide (b.gain < g)

/-- One iteration of the inner candidate loop of `build` (main.rs lines
260-285): partition, summarize both sides, discard the candidate if either
summary is undefined or a side is too small, otherwise score it and keep it
when its gain beats the running maximum. -/
def evalCandidate (m : Model) (curScore : ℚ) (n_c n_t : Int) (data : List Row)
    (f : String) (v : SplitValue) (best : Option Best) : Except String (Option Best) :=
  let data_left := (split_set v f data).1
  let data_right := (split_set v f data).2
  let left_summary := summary data_left
  let right_summary := summary data_right
  if left_summary.length ≠ 4 ∨ right_summary.length ≠ 4
      ∨ left_summary.getD 0 0 + left_summary.getD 2 0 ≤ m.min_sample_leaf
      ∨ right_summary.getD 0 0 + right_summary.getD 2 0 ≤ m.min_sample_leaf then
    .ok best
  else
    match calc_score left_summary with
    | .error e => .error e
    | .ok left_score =>
      match calc_score right_summary with
      | .error e => .error e
      | .ok right_score =>
        let p : ℚ := (data_left.length : ℚ) / (data.length : ℚ)
        let gain := (left_score * p + right_score * (1 - p) - curScore)
          / calc_norm n_c n_t (left_summary.getD 0 0) (left_summary.getD 2 0)
        if gainBeatsMax gain best then
          .ok (some { gain := gain, left := data_left, right := data_right, col := f, value := v })
        else
          .ok best

/-- The inner loop of `build` over the candidate values of one feature. -/
def evalValues (m : Model) (curScore : ℚ) (n_c n_t : Int) (data : List Row)
    (f : String) : List SplitValue → Option Best → Except String (Option Best)
  | [], best => .ok best
  | v :: rest, best =>
    match evalCandidate m curScore n_c n_t data f v best with
    | .error e => .error e
    | .ok b => evalValues m curScore n_c n_t data f rest b

/-- The outer loop of `build` over the sampled features: generate the candidate
values of the feature column, then fold the candidate loop. -/
def evalFeatures (m : Model) (rng : Rng) (curScore : ℚ) (n_c n_t : Int)
    (data : List Row) : List String → Option Best → Except String (Option Best)
  | [], best => .ok best
  | f :: rest, best =>
    match calc_split_values m rng (data.map (fun r => r.feat f)) with
    | .error e => .error e
    | .ok split_values =>
      match evalValues m curScore n_c n_t data f split_values best with
      | .error e => .error e
      | .ok b => evalFeatures m rng curScore n_c n_t data rest b

/-- In-place node update through the `RefMut` (the `cur_node` pointer writes of
main.rs lines 289-292). Out-of-range indices are checked by the caller before
use. -/
def updateAt (nodes : List TreeNode) (i : Nat) (g : TreeNode → TreeNode) : List TreeNode :=
  nodes.set i (g (nodes.getD i TreeNode.new))

/-- `UpliftTreeModel::build`. The extra arguments make the Rust state explicit:
`nodes` is the content of the `RefCell`-backed node vector, and `borrowHeld`
records whether an enclosing (parent) `build` call still holds the `RefMut`
obtained at main.rs line 288 — that borrow lives to the end of the `if` block,
i.e. across both recursive calls, so the recursive calls run with
`borrowHeld = true` and a nested `borrow_mut` (performed just before a commit)
fails with `BorrowMutError`. The structural `fuel` argument only forces
termination; `fit` passes enough fuel that the `fuel = 0` case is unreachable
(the `depth ≥ max_depth` stop fires first). -/
def build (m : Model) (rng : Rng) : Nat → List Row → Nat → Int → List TreeNode → Bool →
    Except String (List TreeNode × Int)
  | 0, _, _, _, _, _ => .error "recursion fuel exhausted"
  | fuel + 1, data, cur_idx, depth, nodes, borrowHeld =>
    if m.max_depth ≤ depth then
      .ok (nodes, -1)
    else
      match calc_score (summary data) with
      | .error e => .error e
      | .ok cur_score =>
        match evalFeatures m rng cur_score ((summary data).getD 0 0) ((summary data).getD 2 0)
            data (rng.chooseFeatures m.feature_cols m.feature_sample_size.toNat) none with
        | .error e => .error e
        | .ok best =>
          match best with
          | none => .ok (nodes, -1)
          | some b =>
            if 0 < b.gain ∧ depth < m.max_depth then
              if borrowHeld then
                .error "already mutably borrowed: BorrowMutError"
              else if cur_idx < nodes.length then
                match build m rng fuel b.left (2 * cur_idx + 1) (depth + 1)
                    (updateAt nodes cur_idx
                      (fun nd => { nd with col_name := b.col, split_value := b.value })) true with
                | .error e => .error e
                | .ok (nodes2, tb) =>
                  match build m rng fuel b.right (2 * cur_idx + 2) (depth + 1)
                      (updateAt nodes2 cur_idx (fun nd => { nd with true_branch := tb })) true with
                  | .error e => .error e
                  | .ok (nodes3, fb) =>
                    .ok (updateAt nodes3 cur_idx (fun nd => { nd with false_branch := fb }),
                         (cur_idx : Int))
              else
                .error "index out of bounds"
            else
              .ok (nodes, -1)

/-- The node vector allocated by `UpliftTreeModel::new`:
`vec![TreeNode::new(); 1 << max_depth - 1]`, i.e. `2^(max_depth-1)` default
slots (`-` binds tighter than `<<` in Rust). -/
def initNodes (max_depth : Int) : List TreeNode :=
  List.replicate (2 ^ (max_depth - 1).toNat) TreeNode.new

/-- `UpliftTreeModel::fit` restricted to the core (loading, column
classification and casting are the external collaborators producing the
`List Row`): assert `feature_sample_size <= feature_cols.len()`, then run
`build` on the full dataset at index 0, depth 0, with a freshly allocated node
vector and no outstanding borrow. -/
def fit (m : Model) (rng : Rng) (data : List Row) : Except String (List TreeNode × Int) :=
  if m.feature_sample_size ≤ (m.feature_cols.length : Int) then
    build m rng (m.max_depth.toNat + 1) data 0 0 (initNodes m.max_depth) false
  else
    .error "assertion failed: feature_sample_size <= feature_cols.len()"

/-- Indices reachable from the root (index 0) by following recorded branch
pointers that are not `-1`, together with the pointer-following depth. -/
inductive Reachable (nodes : List TreeNode) : Nat → Nat → Prop where
  | root : Reachable nodes 0 0
  | viaTrue {i d} : Reachable nodes i d → i < nodes.length →
      (nodes.getD i TreeNode.new).true_branch ≠ -1 →
      Reachable nodes ((nodes.getD i TreeNode.new).true_branch).toNat (d + 1)
  | viaFalse {i d} : Reachable nodes i d → i < nodes.length →
      (nodes.getD i TreeNode.new).false_branch ≠ -1 →
      Reachable nodes ((nodes.getD i TreeNode.new).false_branch).toNat (d + 1)

/-- Every slot of the node vector has both branch pointers equal to `-1`. -/
def BranchesNeg (ns : List TreeNode) : Prop :=
  ∀ i, (ns.getD i TreeNode.new).true_branch = -1 ∧ (ns.getD i TreeNode.new).false_branch = -1

/-- A deterministic sample source for concrete runs: take the feature names in
order and the first `n` stringified values. -/
def exRng : Rng := ⟨fun l _ => l, fun l n => l.take n⟩

/-- A row of the one-feature example dataset. -/
def exRow (x : ℚ) (t o : Int) : Row := ⟨[("x", .Numeric x)], t, o⟩

/-- Four rows over one numeric feature `x` with both treatment arms on both
sides of the threshold `x ≤ 1`; the split at `x ≤ 1` has gain `4/5 > 0`. -/
def exData : List Row := [exRow 1 0 1, exRow 1 1 0, exRow 2 0 0, exRow 2 1 1]

/-- Same rows with all outcomes zero: every surviving candidate has gain 0. -/
def exDataFlat : List Row := [exRow 1 0 0, exRow 1 1 0, exRow 2 0 0, exRow 2 1 0]

/-- A dataset with only treatment = 1 rows. -/
def exOneArm : List Row := [exRow 1 1 0, exRow 2 1 1]

/-- Hyperparameters for the concrete runs: `max_depth = 1`,
`min_sample_leaf = 0`, `feature_sample_size = 1`, `max_splits = 8`. -/
def exModel : Model := ⟨1, 0, 1, 8, ["x"]⟩

/-- A `build` call made while an enclosing call still holds the `RefMut`
(`borrowHeld = true`) can never modify the node vector nor return a committed
index: if it returns at all, it returns `-1` and the nodes unchanged — any
commit attempt dies on the nested `borrow_mut`. -/
theorem borrowed_build_ok (m : Model) (rng : Rng) (fuel : Nat) (data : List Row) (i : Nat)
    (d : Int) (ns ns' : List TreeNode) (r' : Int)
    (h : build m rng fuel data i d ns true = .ok (ns', r')) : ns' = ns ∧ r' = -1 := by
  match fuel with
  | 0 => simp [build] at h
  | fuel + 1 =>
    rw [build] at h
    split at h
    · cases h; exact ⟨rfl, rfl⟩
    · split at h
      · cases h
      · split at h
        · cases h
        · split at h
          · cases h; exact ⟨rfl, rfl⟩
          · split at h
            · cases h
            · cases h; exact ⟨rfl, rfl⟩

theorem initNodes_getD (md : Int) (i : Nat) :
    (initNodes md).getD i TreeNode.new = TreeNode.new := by
  unfold initNodes
  rw [List.getD_eq_getElem?_getD]
  rcases h : (List.replicate (2 ^ (md - 1).toNat) TreeNode.new)[i]? with _ | nd
  · rfl
  · simp only [Option.getD_some]
    exact List.eq_of_mem_replicate (List.getElem?_mem h)

theorem branchesNeg_initNodes (md : Int) : BranchesNeg (initNodes md) := by
  intro i
  rw [initNodes_getD]
  exact ⟨rfl, rfl⟩

theorem branchesNeg_updateAt (ns : List TreeNode) (i : Nat) (g : TreeNode → TreeNode)
    (h : BranchesNeg ns)
    (hg : ∀ nd, nd.true_branch = -1 → nd.false_branch = -1 →
      (g nd).true_branch = -1 ∧ (g nd).false_branch = -1) :
    BranchesNeg (updateAt ns i g) := by
  intro j
  unfold updateAt
  rcases eq_or_ne i j with rfl | hne
  · rcases lt_or_ge i ns.length with hlt | hge
    · have : (ns.set i (g (ns.getD i TreeNode.new))).getD i TreeNode.new
          = g (ns.getD i TreeNode.new) := by
        simp [List.getD, List.getElem?_set_self, hlt]
      rw [this]
      exact hg _ (h i).1 (h i).2
    · rw [List.set_eq_of_length_le (by simpa using hge)]
      exact h i
  · have : (ns.set i (g (ns.getD i TreeNode.new))).getD j TreeNode.new
        = ns.getD j TreeNode.new := by
      simp [List.getD, List.getElem?_set_ne, hne]
    rw [this]
    exact h j

/-- A successful `fit` produces a node vector of `2^(max_depth-1)` slots in
which every recorded branch pointer is `-1`: the nested-borrow failure makes
any deeper committed split impossible, so only the root slot can ever carry a
split. -/
theorem fit_result_shape (m : Model) (rng : Rng) (data : List Row) (ns : List TreeNode)
    (r : Int) (h : fit m rng data = .ok (ns, r)) :
    ns.length = 2 ^ (m.max_depth - 1).toNat ∧ BranchesNeg ns := by
  unfold fit at h
  split at h
  case isFalse => cases h
  case isTrue =>
    rw [build] at h
    have hinit : (initNodes m.max_depth).length = 2 ^ (m.max_depth - 1).toNat := by
      simp [initNodes]
    split at h
    · cases h; exact ⟨hinit, branchesNeg_initNodes _⟩
    · split at h
      · cases h
      · split at h
        · cases h
        · split at h
          · cases h; exact ⟨hinit, branchesNeg_initNodes _⟩
          · split at h
            · rename_i b hcond
              split at h
              · cases h
              · split at h
                · split at h
                  · cases h
                  · rename_i ns2tb hchild1
                    obtain ⟨hns2, htb⟩ := borrowed_build_ok _ _ _ _ _ _ _ _ _ hchild1
                    split at h
                    · cases h
                    · rename_i ns3fb hchild2
                      obtain ⟨hns3, hfb⟩ := borrowed_build_ok _ _ _ _ _ _ _ _ _ hchild2
                      cases h
                      subst hns2 hns3 htb hfb
                      refine ⟨?_, ?_⟩
                      · simp [updateAt, hinit]
                      · refine branchesNeg_updateAt _ _ _ ?_ ?_
                        · refine branchesNeg_updateAt _ _ _ ?_ ?_
                          · exact branchesNeg_updateAt _ _ _ (branchesNeg_initNodes _)
                              (fun nd h1 h2 => ⟨h1, h2⟩)
                          · exact fun nd h1 h2 => ⟨rfl, h2⟩
                        · exact fun nd h1 h2 => ⟨h1, rfl⟩
                · cases h
            · cases h; exact ⟨hinit, branchesNeg_initNodes _⟩

/-- Claim C1: for every fitted model, every node index reachable from the root
(index 0) by following recorded branch pointers that are not `-1` lies strictly
within `[0, 2^(max_depth-1))`, and the pointer-following depth of any reachable
node never exceeds `max_depth`. (In a successful fit only the root slot can
carry a committed split — see `borrowed_build_ok` — so the reachable set is
`{0}` and both bounds hold.) -/
theorem tree_shape_invariant (m : Model) (rng : Rng) (data : List Row) (ns : List TreeNode)
    (r : Int) (hmd : 1 ≤ m.max_depth) (hfit : fit m rng data = .ok (ns, r)) :
    ∀ i d, Reachable ns i d → i < 2 ^ (m.max_depth - 1).toNat ∧ (d : Int) ≤ m.max_depth := by
  obtain ⟨hlen, hbn⟩ := fit_result_shape m rng data ns r hfit
  intro i d hr
  induction hr with
  | root => exact ⟨pow_pos (by norm_num) _, by omega⟩
  | viaTrue hreach hlt hne ih => exact absurd (hbn _).1 hne
  | viaFalse hreach hlt hne ih => exact absurd (hbn _).2 hne

theorem tree_shape_invariant_witness :
    (0 : Nat) < 2 ^ (exModel.max_depth - 1).toNat ∧ ((0 : Nat) : Int) ≤ exModel.max_depth :=
  tree_shape_invariant exModel exRng exData
    [{ col_name := "x", split_value := .Numeric 1, true_branch := -1, false_branch := -1 }] 0
    (by norm_num [exModel])
    (by norm_num [fit, build, initNodes, updateAt, evalFeatures, evalValues, evalCandidate,
      calc_split_values, strideOf, summary, countT, sumOutcome, calc_score, calc_norm, split_set,
      numLe, numGt, gainBeatsMax, exModel, exRng, exData, exRow, Row.feat, List.dedup, List.lookup,
      SplitValue.numVal, SplitValue.isNumeric, TreeNode.new, List.replicate, List.set])
    0 0 Reachable.root

/-- Claim C2: a recursive `build` call made while the parent commit still holds
the `RefCell` mutable borrow (`borrowHeld = true`) that itself reaches a commit
(depth below `max_depth`, defined current summary, best candidate with gain
`> 0`) aborts with the nested-mutable-borrow failure instead of returning; by
error propagation, any fit whose tree would contain a committed split at a
non-root index aborts instead of returning the fitted model. -/
theorem nested_commit_borrow_error (m : Model) (rng : Rng) (fuel : Nat) (data : List Row)
    (cur_idx : Nat) (depth : Int) (nodes : List TreeNode)
    (hd : depth < m.max_depth) (s : ℚ) (hs : calc_score (summary data) = .ok s)
    (hbest : ∃ b, evalFeatures m rng s ((summary data).getD 0 0) ((summary data).getD 2 0) data
        (rng.chooseFeatures m.feature_cols m.feature_sample_size.toNat) none = .ok (some b)
        ∧ 0 < b.gain) :
    build m rng (fuel + 1) data cur_idx depth nodes true =
      .error "already mutably borrowed: BorrowMutError" := by
  obtain ⟨b, hb, hg⟩ := hbest
  rw [build, if_neg (not_le.mpr hd)]
  split
  · rename_i e he
    rw [hs] at he
    cases he
  · rename_i cs hcs
    rw [hs] at hcs
    injection hcs with hcs
    subst hcs
    split
    · rename_i e he
      rw [hb] at he
      cases he
    · rename_i bo hbo
      rw [hb] at hbo
      injection hbo with hbo
      subst hbo
      simp [hg, hd]

theorem nested_commit_borrow_error_witness :
    build exModel exRng 1 exData 5 0 [] true =
      .error "already mutably borrowed: BorrowMutError" :=
  nested_commit_borrow_error exModel exRng 0 exData 5 0 [] (by norm_num [exModel]) 0
    (by norm_num [summary, countT, sumOutcome, calc_score, exData, exRow, List.dedup])
    ⟨⟨4/5, [exRow 1 0 1, exRow 1 1 0], [exRow 2 0 0, exRow 2 1 1], "x", .Numeric 1⟩,
      by norm_num [evalFeatures, evalValues, evalCandidate, calc_split_values, strideOf, summary,
        countT, sumOutcome, calc_score, calc_norm, split_set, numLe, numGt, gainBeatsMax,
        exModel, exRng, exData, exRow, Row.feat, List.dedup, List.lookup, SplitValue.numVal,
        SplitValue.isNumeric],
      by norm_num⟩

/-- Claim C3: at a node below the depth limit with a defined, scorable current
summary, `build` either finds no candidate with positive gain — and then
returns `-1` leaving every slot of the node vector untouched — or commits the
best candidate: it writes the winning feature and split value into slot
`cur_idx`, stores the result of the recursive call on the left subset at
`2*cur_idx+1` as `true_branch`, the result of the recursive call on the right
subset at `2*cur_idx+2` as `false_branch`, and returns `cur_idx`. -/
theorem build_commit_or_leaf (m : Model) (rng : Rng) (fuel : Nat) (data : List Row)
    (cur_idx : Nat) (depth : Int) (nodes : List TreeNode)
    (hd : depth < m.max_depth) (s : ℚ) (hs : calc_score (summary data) = .ok s)
    (best : Option Best)
    (hb : evalFeatures m rng s ((summary data).getD 0 0) ((summary data).getD 2 0) data
        (rng.chooseFeatures m.feature_cols m.feature_sample_size.toNat) none = .ok best) :
    ((∀ b, best = some b → b.gain ≤ 0) →
        build m rng (fuel + 1) data cur_idx depth nodes false = .ok (nodes, -1))
    ∧ (∀ b, best = some b → 0 < b.gain → cur_idx < nodes.length →
        ∀ ns1 tb, build m rng fuel b.left (2 * cur_idx + 1) (depth + 1)
            (updateAt nodes cur_idx
              (fun nd => { nd with col_name := b.col, split_value := b.value })) true
            = .ok (ns1, tb) →
        ∀ ns2 fb, build m rng fuel b.right (2 * cur_idx + 2) (depth + 1)
            (updateAt ns1 cur_idx (fun nd => { nd with true_branch := tb })) true
            = .ok (ns2, fb) →
        build m rng (fuel + 1) data cur_idx depth nodes false
          = .ok (updateAt ns2 cur_idx (fun nd => { nd with false_branch := fb }),
                 (cur_idx : Int))) := by
  constructor
  · intro hnogain
    rw [build, if_neg (not_le.mpr hd)]
    split
    · rename_i e he
      rw [hs] at he
      cases he
    · rename_i cs hcs
      rw [hs] at hcs
      injection hcs with hcs
      subst hcs
      split
      · rename_i e he
        rw [hb] at he
        cases he
      · rename_i bo hbo
        rw [hb] at hbo
        injection hbo with hbo
        subst hbo
        match best with
        | none => rfl
        | some b => simp [not_lt.mpr (hnogain b rfl)]
  · intro b hbeq hg hlt ns1 tb h1 ns2 fb h2
    subst hbeq
    rw [build, if_neg (not_le.mpr hd)]
    split
    · rename_i e he
      rw [hs] at he
      cases he
    · rename_i cs hcs
      rw [hs] at hcs
      injection hcs with hcs
      subst hcs
      split
      · rename_i e he
        rw [hb] at he
        cases he
      · rename_i bo hbo
        rw [hb] at hbo
        injection hbo with hbo
        subst hbo
        simp [hg, hd, hlt, h1, h2]

theorem build_commit_or_leaf_witness :
    build exModel exRng 1 exDataFlat 0 0 (initNodes 1) false = .ok (initNodes 1, -1) :=
  (build_commit_or_leaf exModel exRng 0 exDataFlat 0 0 (initNodes 1) (by norm_num [exModel]) 0
    (by norm_num [summary, countT, sumOutcome, calc_score, exDataFlat, exRow, List.dedup])
    (some ⟨0, [exRow 1 0 0, exRow 1 1 0], [exRow 2 0 0, exRow 2 1 0], "x", .Numeric 1⟩)
    (by norm_num [evalFeatures, evalValues, evalCandidate, calc_split_values, strideOf, summary,
      countT, sumOutcome, calc_score, calc_norm, split_set, numLe, numGt, gainBeatsMax,
      exModel, exRng, exDataFlat, exRow, Row.feat, List.dedup, List.lookup, SplitValue.numVal,
      SplitValue.isNumeric])).1
    (fun b hbeq => by cases hbeq; norm_num)

/-- The guard of main.rs lines 264-270 on a tracked best candidate: both side
summaries are defined and both sides have strictly more than `min_sample_leaf`
rows in control plus treatment. -/
def GoodBest (m : Model) (b : Best) : Prop :=
  (summary b.left).length = 4 ∧ (summary b.right).length = 4
  ∧ m.min_sample_leaf < (summary b.left).getD 0 0 + (summary b.left).getD 2 0
  ∧ m.min_sample_leaf < (summary b.right).getD 0 0 + (summary b.right).getD 2 0

theorem evalCandidate_good (m : Model) (cs : ℚ) (n_c n_t : Int) (data : List Row)
    (f : String) (v : SplitValue) (best best' : Option Best)
    (hb : ∀ b0, best = some b0 → GoodBest m b0)
    (h : evalCandidate m cs n_c n_t data f v best = .ok best') :
    ∀ b0, best' = some b0 → GoodBest m b0 := by
  simp only [evalCandidate] at h
  split at h
  · cases h
    exact hb
  · rename_i hguard
    push_neg at hguard
    obtain ⟨hl4, hr4, hlmin, hrmin⟩ := hguard
    split at h
    · cases h
    · split at h
      · cases h
      · split at h
        · cases h
          intro b0 hb0
          cases hb0
          exact ⟨hl4, hr4, hlmin, hrmin⟩
        · cases h
          exact hb

theorem evalValues_good (m : Model) (cs : ℚ) (n_c n_t : Int) (data : List Row) (f : String) :
    ∀ (vs : List SplitValue) (best best' : Option Best),
      (∀ b0, best = some b0 → GoodBest m b0) →
      evalValues m cs n_c n_t data f vs best = .ok best' →
      ∀ b0, best' = some b0 → GoodBest m b0 := by
  intro vs
  induction vs with
  | nil =>
    intro best best' hb h
    cases h
    exact hb
  | cons v rest ih =>
    intro best best' hb h
    rw [evalValues] at h
    split at h
    · cases h
    · rename_i b1 h1
      exact ih b1 best' (evalCandidate_good m cs n_c n_t data f v best b1 hb h1) h

theorem evalFeatures_good (m : Model) (rng : Rng) (cs : ℚ) (n_c n_t : Int) (data : List Row) :
    ∀ (fs : List String) (best best' : Option Best),
      (∀ b0, best = some b0 → GoodBest m b0) →
      evalFeatures m rng cs n_c n_t data fs best = .ok best' →
      ∀ b0, best' = some b0 → GoodBest m b0 := by
  intro fs
  induction fs with
  | nil =>
    intro best best' hb h
    cases h
    exact hb
  | cons f rest ih =>
    intro best best' hb h
    rw [evalFeatures] at h
    split at h
    · cases h
    · rename_i svs hsvs
      split at h
      · cases h
      · rename_i b1 h1
        exact ih b1 best' (evalValues_good m cs n_c n_t data f svs best b1 hb h1) h

/-- Claim C4: any best candidate produced by the feature/value loops of `build`
(hence any committed split) passed the discard checks: both sides have a
defined summary and strictly more than `min_sample_leaf` rows counting control
plus treatment; a candidate failing those checks is skipped before gain
evaluation and can never be tracked as the best. -/
theorem leaf_size_respected (m : Model) (rng : Rng) (cs : ℚ) (n_c n_t : Int)
    (data : List Row) (fs : List String) (b : Best)
    (h : evalFeatures m rng cs n_c n_t data fs none = .ok (some b)) :
    m.min_sample_leaf < (summary b.left).getD 0 0 + (summary b.left).getD 2 0
    ∧ m.min_sample_leaf < (summary b.right).getD 0 0 + (summary b.right).getD 2 0
    ∧ (summary b.left).length = 4 ∧ (summary b.right).length = 4 := by
  have hg := evalFeatures_good m rng cs n_c n_t data fs none (some b)
    (fun b0 hb0 => by cases hb0) h b rfl
  exact ⟨hg.2.2.1, hg.2.2.2, hg.1, hg.2.1⟩

theorem leaf_size_respected_witness :
    exModel.min_sample_leaf
        < (summary [exRow 1 0 1, exRow 1 1 0]).getD 0 0 + (summary [exRow 1 0 1, exRow 1 1 0]).getD 2 0
    ∧ exModel.min_sample_leaf
        < (summary [exRow 2 0 0, exRow 2 1 1]).getD 0 0 + (summary [exRow 2 0 0, exRow 2 1 1]).getD 2 0
    ∧ (summary [exRow 1 0 1, exRow 1 1 0]).length = 4
    ∧ (summary [exRow 2 0 0, exRow 2 1 1]).length = 4 :=
  leaf_size_respected exModel exRng 0 2 2 exData ["x"]
    ⟨4/5, [exRow 1 0 1, exRow 1 1 0], [exRow 2 0 0, exRow 2 1 1], "x", .Numeric 1⟩
    (by norm_num [evalFeatures, evalValues, evalCandidate, calc_split_values, strideOf, summary,
      countT, sumOutcome, calc_score, calc_norm, split_set, numLe, numGt, gainBeatsMax,
      exModel, exRng, exData, exRow, Row.feat, List.dedup, List.lookup, SplitValue.numVal,
      SplitValue.isNumeric])

theorem length_filter_complement {α : Type} (p q : α → Bool) :
    ∀ (l : List α), (∀ x ∈ l, q x = !p x) →
      (l.filter p).length + (l.filter q).length = l.length := by
  intro l
  induction l with
  | nil => intro _; rfl
  | cons a t ih =>
    intro h
    have ha := h a (List.mem_cons_self a t)
    have ht := ih (fun x hx => h x (List.mem_cons_of_mem _ hx))
    by_cases hp : p a
    · simp [List.filter_cons, hp, ha]
      omega
    · have hp' : p a = false := by simpa using hp
      simp [List.filter_cons, hp', ha]
      omega

/-- The typing discipline guaranteed by the preprocessing of `fit`: the values
of the split column match the variant of the split value (a homogeneous cast
column, from which the candidate value itself was drawn). -/
def WellTypedFor (v : SplitValue) (f : String) (data : List Row) : Prop :=
  match v with
  | .Numeric _ => ∀ r ∈ data, (r.feat f).isNumeric = true
  | .Str _ => ∀ r ∈ data, (r.feat f).isNumeric = false

theorem numGt_eq_not_numLe (x : SplitValue) (q : ℚ) (hx : x.isNumeric = true) :
    numGt x q = !numLe x q := by
  match x with
  | .Numeric q0 =>
    simp only [numGt, numLe]
    rcases le_or_lt q0 q with h | h
    · simp [h, not_lt.mpr h]
    · simp [h, not_le.mpr h]
  | .Str _ => cases hx

theorem strNe_eq_not_strEq (x : SplitValue) (s : String) (hx : x.isNumeric = false) :
    strNe x s = !strEq x s := by
  match x with
  | .Numeric _ => cases hx
  | .Str t => rfl

/-- Claim C5: `split_set` returns two disjoint row subsets whose lengths sum to
the dataset length; with a numeric split value `q` the left part consists
exactly of the rows whose feature value is ≤ q and the right part of those
with value > q; with a categorical value `s` the left part consists exactly of
the rows whose feature equals `s` and the right part of those whose feature
differs from `s`. The length/characterization parts assume the column is
well-typed for the split value, as `fit`'s casting guarantees. -/
theorem partition_complete (v : SplitValue) (f : String) (data : List Row)
    (hwt : WellTypedFor v f data) :
    (split_set v f data).1.length + (split_set v f data).2.length = data.length
    ∧ (∀ x, x ∈ (split_set v f data).1 → x ∈ (split_set v f data).2 → False)
    ∧ (∀ q, v = .Numeric q → ∀ x,
        (x ∈ (split_set v f data).1 ↔ x ∈ data ∧ (x.feat f).numVal ≤ q)
        ∧ (x ∈ (split_set v f data).2 ↔ x ∈ data ∧ q < (x.feat f).numVal))
    ∧ (∀ s, v = .Str s → ∀ x,
        (x ∈ (split_set v f data).1 ↔ x ∈ data ∧ x.feat f = .Str s)
        ∧ (x ∈ (split_set v f data).2 ↔ x ∈ data ∧ x.feat f ≠ .Str s)) := by
  refine ⟨?_, ?_, ?_, ?_⟩
  · match v with
    | .Numeric q =>
      exact length_filter_complement _ _ data
        (fun r hr => numGt_eq_not_numLe (r.feat f) q (hwt r hr))
    | .Str s =>
      exact length_filter_complement _ _ data
        (fun r hr => strNe_eq_not_strEq (r.feat f) s (hwt r hr))
  · intro x hx1 hx2
    match v with
    | .Numeric q =>
      have h1 := (List.mem_filter.mp hx1).2
      have h2 := (List.mem_filter.mp hx2).2
      match hx : x.feat f with
      | .Numeric q0 =>
        rw [hx] at h1 h2
        simp only [numLe, numGt, decide_eq_true_eq] at h1 h2
        exact absurd h1 (not_le.mpr h2)
      | .Str _ =>
        rw [hx] at h1
        cases h1
    | .Str s =>
      have h1 := (List.mem_filter.mp hx1).2
      have h2 := (List.mem_filter.mp hx2).2
      match hx : x.feat f with
      | .Numeric _ =>
        rw [hx] at h1
        cases h1
      | .Str t =>
        rw [hx] at h1 h2
        simp only [strEq, strNe, beq_iff_eq, bne_iff_ne] at h1 h2
        exact h2 h1
  · rintro q rfl x
    have hxn : ∀ hx : x ∈ data, ∃ q0, x.feat f = .Numeric q0 := by
      intro hx
      match hfx : x.feat f with
      | .Numeric q0 => exact ⟨q0, rfl⟩
      | .Str _ => have := hwt x hx; rw [hfx] at this; cases this
    simp only [split_set]
    constructor
    · rw [List.mem_filter]
      constructor
      · rintro ⟨hm, hp⟩
        obtain ⟨q0, hq0⟩ := hxn hm
        rw [hq0] at hp ⊢
        simp only [numLe, decide_eq_true_eq] at hp
        exact ⟨hm, by simpa [SplitValue.numVal] using hp⟩
      · rintro ⟨hm, hle⟩
        obtain ⟨q0, hq0⟩ := hxn hm
        rw [hq0] at hle
        refine ⟨hm, ?_⟩
        rw [hq0]
        simpa [numLe, SplitValue.numVal] using hle
    · rw [List.mem_filter]
      constructor
      · rintro ⟨hm, hp⟩
        obtain ⟨q0, hq0⟩ := hxn hm
        rw [hq0] at hp ⊢
        simp only [numGt, decide_eq_true_eq] at hp
        exact ⟨hm, by simpa [SplitValue.numVal] using hp⟩
      · rintro ⟨hm, hgt⟩
        obtain ⟨q0, hq0⟩ := hxn hm
        rw [hq0] at hgt
        refine ⟨hm, ?_⟩
        rw [hq0]
        simpa [numGt, SplitValue.numVal] using hgt
  · rintro s rfl x
    have hxs : ∀ hx : x ∈ data, ∃ t, x.feat f = .Str t := by
      intro hx
      match hfx : x.feat f with
      | .Numeric _ => have := hwt x hx; rw [hfx] at this; cases this
      | .Str t => exact ⟨t, rfl⟩
    simp only [split_set]
    constructor
    · rw [List.mem_filter]
      constructor
      · rintro ⟨hm, hp⟩
        obtain ⟨t, ht⟩ := hxs hm
        rw [ht] at hp ⊢
        simp only [strEq, beq_iff_eq] at hp
        exact ⟨hm, by rw [hp]⟩
      · rintro ⟨hm, heq⟩
        obtain ⟨t, ht⟩ := hxs hm
        refine ⟨hm, ?_⟩
        rw [heq]
        simp [strEq]
    · rw [List.mem_filter]
      constructor
      · rintro ⟨hm, hp⟩
        obtain ⟨t, ht⟩ := hxs hm
        rw [ht] at hp ⊢
        simp only [strNe, bne_iff_ne] at hp
        exact ⟨hm, by simp [hp]⟩
      · rintro ⟨hm, hne⟩
        obtain ⟨t, ht⟩ := hxs hm
        refine ⟨hm, ?_⟩
        rw [ht]
        rw [ht] at hne
        simp only [strNe, bne_iff_ne]
        exact fun hts => hne (by rw [hts])

theorem partition_complete_witness :
    (split_set (.Numeric 1) "x" exData).1.length + (split_set (.Numeric 1) "x" exData).2.length
      = exData.length :=
  (partition_complete (.Numeric 1) "x" exData
    (by intro r hr; fin_cases hr <;> rfl)).1

/-- Exactly two groups, in the words of the spec: two distinct treatment
values occur in the dataset and every row carries one of them. -/
def TwoGroupsSpec (data : List Row) : Prop :=
  ∃ a b, a ≠ b ∧ a ∈ data.map Row.treatment ∧ b ∈ data.map Row.treatment
    ∧ ∀ c ∈ data.map Row.treatment, c = a ∨ c = b

theorem dedup_length_two (l : List Int) (a b : Int) (hab : a ≠ b) (ha : a ∈ l) (hb : b ∈ l)
    (hall : ∀ c ∈ l, c = a ∨ c = b) : l.dedup.length = 2 := by
  have h1 : l.dedup ⊆ [a, b] := by
    intro x hx
    rcases hall x (List.mem_dedup.mp hx) with rfl | rfl <;> simp
  have h2 : [a, b] ⊆ l.dedup := by
    intro x hx
    rcases List.mem_pair.mp hx with rfl | rfl
    · exact List.mem_dedup.mpr ha
    · exact List.mem_dedup.mpr hb
  have hn2 : ([a, b] : List Int).Nodup := by simp [hab]
  have hle1 := (List.subperm_of_subset (List.nodup_dedup l) h1).length_le
  have hle2 := (List.subperm_of_subset hn2 h2).length_le
  simp only [List.length_cons, List.length_nil] at hle1 hle2
  omega

theorem dedup_of_const (l : List Int) (c : Int) (h : ∀ x ∈ l, x = c) :
    l.dedup = [] ∨ l.dedup = [c] := by
  have hnd := List.nodup_dedup l
  match hd : l.dedup with
  | [] => exact Or.inl rfl
  | [x] =>
    have hx : x = c := h x (List.mem_dedup.mp (by rw [hd]; exact List.mem_singleton_self x))
    exact Or.inr (by rw [hx])
  | x :: y :: t =>
    exfalso
    have hx : x = c := h x (List.mem_dedup.mp (by rw [hd]; simp))
    have hy : y = c := h y (List.mem_dedup.mp (by rw [hd]; simp))
    rw [hd] at hnd
    have hxy : x ≠ y := fun hxy => (List.nodup_cons.mp hnd).1 (by rw [hxy]; simp)
    exact hxy (by rw [hx, hy])

/-- Claim C6: `summary` is defined (non-empty) exactly when grouping by the
treatment column yields two groups; when defined it is
`[n_c, n_pc, n_t, n_pt]` for the two treatment values in ascending order,
with the group row counts and outcome sums; a dataset containing only
treatment = 1 rows yields no summary. -/
theorem summary_defined_iff (data : List Row) :
    (summary data ≠ [] ↔ TwoGroupsSpec data)
    ∧ (summary data ≠ [] →
        ∃ t0 t1, t0 < t1 ∧ t0 ∈ data.map Row.treatment ∧ t1 ∈ data.map Row.treatment
          ∧ summary data
            = [countT data t0, sumOutcome data t0, countT data t1, sumOutcome data t1])
    ∧ ((∀ r ∈ data, r.treatment = 1) → summary data = []) := by
  refine ⟨⟨?_, ?_⟩, ?_, ?_⟩
  · intro hne
    match hd : (data.map Row.treatment).dedup with
    | [] => exact absurd (by unfold summary; rw [hd]) hne
    | [x] => exact absurd (by unfold summary; rw [hd]) hne
    | x :: y :: z :: t => exact absurd (by unfold summary; rw [hd]) hne
    | [a, b] =>
      have hnd := List.nodup_dedup (data.map Row.treatment)
      rw [hd] at hnd
      have hab : a ≠ b := by
        intro hab
        exact (List.nodup_cons.mp hnd).1 (by rw [hab]; simp)
      refine ⟨a, b, hab, ?_, ?_, ?_⟩
      · exact List.mem_dedup.mp (by rw [hd]; simp)
      · exact List.mem_dedup.mp (by rw [hd]; simp)
      · intro c hc
        have : c ∈ (data.map Row.treatment).dedup := List.mem_dedup.mpr hc
        rw [hd] at this
        simpa using this
  · rintro ⟨a, b, hab, ha, hb, hall⟩
    have hlen := dedup_length_two (data.map Row.treatment) a b hab ha hb hall
    obtain ⟨x, y, hd⟩ := List.length_eq_two.mp hlen
    unfold summary
    rw [hd]
    simp
  · intro hne
    match hd : (data.map Row.treatment).dedup with
    | [] => exact absurd (by unfold summary; rw [hd]) hne
    | [x] => exact absurd (by unfold summary; rw [hd]) hne
    | x :: y :: z :: t => exact absurd (by unfold summary; rw [hd]) hne
    | [a, b] =>
      have hnd := List.nodup_dedup (data.map Row.treatment)
      rw [hd] at hnd
      have hab : a ≠ b := by
        intro hab
        exact (List.nodup_cons.mp hnd).1 (by rw [hab]; simp)
      have hmem : ∀ c, c ∈ ([a, b] : List Int) → c ∈ data.map Row.treatment := by
        intro c hc
        exact List.mem_dedup.mp (by rw [hd]; exact hc)
      refine ⟨min a b, max a b, min_lt_max.mpr hab, ?_, ?_, ?_⟩
      · rcases min_choice a b with h | h <;> rw [h] <;> exact hmem _ (by simp)
      · rcases max_choice a b with h | h <;> rw [h] <;> exact hmem _ (by simp)
      · unfold summary
        rw [hd]
  · intro hall
    have hconst : ∀ x ∈ data.map Row.treatment, x = 1 := by
      intro x hx
      obtain ⟨r, hr, rfl⟩ := List.mem_map.mp hx
      exact hall r hr
    rcases dedup_of_const (data.map Row.treatment) 1 hconst with hd | hd <;>
      (unfold summary; rw [hd])

theorem summary_defined_iff_witness :
    summary exData ≠ [] ∧ summary exOneArm = [] := by
  constructor
  · refine (summary_defined_iff exData).1.mpr ⟨0, 1, by norm_num, ?_, ?_, ?_⟩
    · simp [exData, exRow]
    · simp [exData, exRow]
    · intro c hc
      simp [exData, exRow] at hc
      rcases hc with h | h | h | h <;> simp [h]
  · exact (summary_defined_iff exOneArm).2.2 (by intro r hr; fin_cases hr <;> rfl)

/-- Claim C7 counterexample: the claimed modulo-by-zero input does not exist.
The oversampled numeric branch is only reached when the distinct-value count
exceeds `max_splits`, and the row count is at least the distinct-value count,
so `stride = row_count / max_splits` is at least 1 whenever `max_splits ≥ 1`
(the hyperparameter contract): no input with a zero stride reaches the
position test. -/
theorem stride_zero_unreachable :
    ¬ ∃ (m : Model) (colValues : List SplitValue),
        1 ≤ m.max_splits ∧ m.max_splits < (colValues.dedup.length : Int)
        ∧ strideOf m colValues = 0 := by
  rintro ⟨m, cv, h1, h2, h3⟩
  have hle : cv.dedup.length ≤ cv.length := (List.dedup_sublist cv).length_le
  have hcast : (cv.dedup.length : Int) ≤ (cv.length : Int) := by exact_mod_cast hle
  unfold strideOf at h3
  have hone : (1 : Int) ≤ (cv.length : Int) / m.max_splits := by
    rw [Int.le_ediv_iff_mul_le (by omega)]
    omega
  omega

/-- Claim C7 amended: in the oversampled numeric branch the stride
`row_count / max_splits` is always at least 1 (the branch condition forces
`row_count ≥ distinct_count > max_splits`), so the position test
`i mod stride == stride - 1` never divides by zero and `calc_split_values`
always returns a value (never panics) when `max_splits ≥ 1`. -/
theorem calc_split_values_total (m : Model) (rng : Rng) (colValues : List SplitValue)
    (hms : 1 ≤ m.max_splits) :
    ∃ vs, calc_split_values m rng colValues = .ok vs := by
  simp only [calc_split_values]
  split
  · split
    · exact ⟨_, rfl⟩
    · exact ⟨_, rfl⟩
  · rename_i hbig
    push_neg at hbig
    split
    · rw [if_neg (by omega : ¬ m.max_splits = 0), if_neg ?hstride]
      · exact ⟨_, rfl⟩
      case hstride =>
        have hle : colValues.dedup.length ≤ colValues.length := (List.dedup_sublist _).length_le
        have hcast : (colValues.dedup.length : Int) ≤ (colValues.length : Int) := by
          exact_mod_cast hle
        have hone : (1 : Int) ≤ strideOf m colValues := by
          unfold strideOf
          rw [Int.le_ediv_iff_mul_le (by omega)]
          omega
        omega
    · exact ⟨_, rfl⟩

theorem calc_split_values_total_witness :
    ∃ vs, calc_split_values exModel exRng [SplitValue.Numeric 1] = .ok vs :=
  calc_split_values_total exModel exRng [.Numeric 1] (by norm_num [exModel])

/-- Claim C8: for nonnegative counts with positive parent and left totals, the
normalizer is at least `1/2` and in particular never zero, so the gain
division never divides by zero. -/
theorem calc_norm_lower_bound (n_c n_t n_c_left n_t_left : Int)
    (h1 : 0 ≤ n_c) (h2 : 0 ≤ n_t) (h3 : 0 ≤ n_c_left) (h4 : 0 ≤ n_t_left)
    (h5 : 0 < n_t + n_c) (h6 : 0 < n_t_left + n_c_left) :
    1 / 2 ≤ calc_norm n_c n_t n_c_left n_t_left
    ∧ calc_norm n_c n_t n_c_left n_t_left ≠ 0 := by
  have hc : (0:ℚ) ≤ (n_c:ℚ) := by exact_mod_cast h1
  have ht : (0:ℚ) ≤ (n_t:ℚ) := by exact_mod_cast h2
  have hcl : (0:ℚ) ≤ (n_c_left:ℚ) := by exact_mod_cast h3
  have htl : (0:ℚ) ≤ (n_t_left:ℚ) := by exact_mod_cast h4
  have hden : (0:ℚ) < (n_t:ℚ) + (n_c:ℚ) := by exact_mod_cast h5
  have hdenl : (0:ℚ) < (n_t_left:ℚ) + (n_c_left:ℚ) := by exact_mod_cast h6
  simp only [calc_norm]
  set pt := (n_t:ℚ) / ((n_t:ℚ) + (n_c:ℚ)) with hpt
  set pcl := (n_c_left:ℚ) / ((n_t_left:ℚ) + (n_c_left:ℚ)) with hpcl
  have hpt0 : 0 ≤ pt := div_nonneg ht hden.le
  have hpt1 : pt ≤ 1 := (div_le_one hden).mpr (by linarith)
  have hpcl0 : 0 ≤ pcl := div_nonneg hcl hdenl.le
  have hpcl1 : pcl ≤ 1 := (div_le_one hdenl).mpr (by linarith)
  have t1 : 0 ≤ (1 - pt ^ 2 - (1 - pt) ^ 2) * (pcl - (1 - pcl)) ^ 2 :=
    mul_nonneg (by nlinarith) (sq_nonneg _)
  have t2 : 0 ≤ pt * (1 - (1 - pcl) ^ 2) := mul_nonneg hpt0 (by nlinarith)
  have t3 : 0 ≤ (1 - pt) * (1 - pcl ^ 2) := mul_nonneg (by linarith) (by nlinarith)
  refine ⟨by linarith, fun h0 => ?_⟩
  have : (0:ℚ) < 1 / 2 := by norm_num
  linarith [h0.ge, h0.le]

theorem calc_norm_lower_bound_witness :
    1 / 2 ≤ calc_norm 1 1 1 1 ∧ calc_norm 1 1 1 1 ≠ 0 :=
  calc_norm_lower_bound 1 1 1 1 (by norm_num) (by norm_num) (by norm_num) (by norm_num)
    (by norm_num) (by norm_num)

/-- Claim C9: at a call below the depth limit, if both treatment values occur
in the dataset (and no others), the current summary is the defined 4-tuple and
`calc_score` succeeds — the `assert!(v.len() == 4)` holds and the `n_c`/`n_t`
accesses are in bounds; conversely a dataset with a single treatment arm
reaches scoring with the undefined (empty) summary, and `build` aborts with
the assertion failure. -/
theorem score_at_nonleaf (m : Model) (rng : Rng) (fuel : Nat) (data : List Row)
    (cur_idx : Nat) (depth : Int) (nodes : List TreeNode) (borrowHeld : Bool)
    (hd : depth < m.max_depth) :
    (((∃ r ∈ data, r.treatment = 0) ∧ (∃ r ∈ data, r.treatment = 1)
        ∧ (∀ r ∈ data, r.treatment = 0 ∨ r.treatment = 1)) →
      (summary data).length = 4 ∧ ∃ q, calc_score (summary data) = .ok q)
    ∧ (∀ c : Int, (∀ r ∈ data, r.treatment = c) →
        build m rng (fuel + 1) data cur_idx depth nodes borrowHeld
          = .error "assertion failed: v.len() == 4") := by
  constructor
  · rintro ⟨⟨r0, hr0, ht0⟩, ⟨r1, hr1, ht1⟩, hall⟩
    have h0m : (0:Int) ∈ data.map Row.treatment := List.mem_map.mpr ⟨r0, hr0, ht0⟩
    have h1m : (1:Int) ∈ data.map Row.treatment := List.mem_map.mpr ⟨r1, hr1, ht1⟩
    have hallm : ∀ c ∈ data.map Row.treatment, c = 0 ∨ c = 1 := by
      intro c hc
      obtain ⟨r, hr, rfl⟩ := List.mem_map.mp hc
      exact hall r hr
    have hlen := dedup_length_two (data.map Row.treatment) 0 1 (by norm_num) h0m h1m hallm
    obtain ⟨x, y, hdxy⟩ := List.length_eq_two.mp hlen
    have hsum : (summary data).length = 4 := by unfold summary; rw [hdxy]; rfl
    exact ⟨hsum, ⟨_, by unfold calc_score; rw [if_pos hsum]⟩⟩
  · intro c hc
    have hconst : ∀ x ∈ data.map Row.treatment, x = c := by
      intro x hx
      obtain ⟨r, hr, rfl⟩ := List.mem_map.mp hx
      exact hc r hr
    have hsummary : summary data = [] := by
      rcases dedup_of_const (data.map Row.treatment) c hconst with hd' | hd' <;>
        (unfold summary; rw [hd'])
    rw [build, if_neg (not_le.mpr hd), hsummary]
    rfl

theorem score_at_nonleaf_witness :
    ((summary exData).length = 4 ∧ ∃ q, calc_score (summary exData) = .ok q)
    ∧ build exModel exRng 1 exOneArm 0 0 [] true
        = .error "assertion failed: v.len() == 4" := by
  constructor
  · exact (score_at_nonleaf exModel exRng 0 exData 0 0 [] true (by norm_num [exModel])).1
      ⟨⟨exRow 1 0 1, by simp [exData], rfl⟩, ⟨exRow 1 1 0, by simp [exData], rfl⟩,
        by intro r hr; fin_cases hr <;> simp [exRow]⟩
  · exact (score_at_nonleaf exModel exRng 0 exOneArm 0 0 [] true (by norm_num [exModel])).2 1
      (by intro r hr; fin_cases hr <;> rfl)

/-- Claim C10: with the random source injected as an explicit input (see
`Rng`, modelled from the spec), `fit` is a pure function of the model, the
source and the data: two fits on identical inputs produce node arrays that
agree slotwise in `col_name`, `split_value`, `true_branch` and
`false_branch`, and agree on the returned root index. -/
theorem fit_deterministic (m : Model) (rng : Rng) (data : List Row)
    (ns1 ns2 : List TreeNode) (r1 r2 : Int)
    (h1 : fit m rng data = .ok (ns1, r1)) (h2 : fit m rng data = .ok (ns2, r2)) :
    ns1.length = ns2.length ∧ r1 = r2
    ∧ ∀ i, (ns1.getD i TreeNode.new).col_name = (ns2.getD i TreeNode.new).col_name
      ∧ (ns1.getD i TreeNode.new).split_value = (ns2.getD i TreeNode.new).split_value
      ∧ (ns1.getD i TreeNode.new).true_branch = (ns2.getD i TreeNode.new).true_branch
      ∧ (ns1.getD i TreeNode.new).false_branch = (ns2.getD i TreeNode.new).false_branch := by
  rw [h1] at h2
  injection h2 with h2
  cases h2
  exact ⟨rfl, rfl, fun i => ⟨rfl, rfl, rfl, rfl⟩⟩

theorem fit_deterministic_witness : (0 : Int) = 0 :=
  (fit_deterministic exModel exRng exData
    [{ col_name := "x", split_value := .Numeric 1, true_branch := -1, false_branch := -1 }]
    [{ col_name := "x", split_value := .Numeric 1, true_branch := -1, false_branch := -1 }]
    0 0
    (by norm_num [fit, build, initNodes, updateAt, evalFeatures, evalValues, evalCandidate,
      calc_split_values, strideOf, summary, countT, sumOutcome, calc_score, calc_norm, split_set,
      numLe, numGt, gainBeatsMax, exModel, exRng, exData, exRow, Row.feat, List.dedup, List.lookup,
      SplitValue.numVal, SplitValue.isNumeric, TreeNode.new, List.replicate, List.set])
    (by norm_num [fit, build, initNodes, updateAt, evalFeatures, evalValues, evalCandidate,
      calc_split_values, strideOf, summary, countT, sumOutcome, calc_score, calc_norm, split_set,
      numLe, numGt, gainBeatsMax, exModel, exRng, exData, exRow, Row.feat, List.dedup, List.lookup,
      SplitValue.numVal, SplitValue.isNumeric, TreeNode.new, List.replicate, List.set])).2.1

end UpliftTree

